import Mathlib

/-!
Verification of CTNR (Compile Type Name Reflector, `src/CTNR.hpp`).

The C++ header computes, at compile time, a null-terminated character array
holding a type's name, by slicing the compiler-generated function signature
(`__PRETTY_FUNCTION__` / `__FUNCSIG__`) between offsets calibrated once on
the reference type `void`.

Shallow embedding conventions:
  * A null-terminated C string is a `List Char`: the characters strictly
    before the terminator.  The terminator itself is the end of the list
    (a C string cannot contain an interior NUL), and `*p != 0` corresponds
    to the list being nonempty.
  * `const char* p + k` (in-bounds pointer arithmetic) is `List.drop k`.
  * `unsigned` is modelled as 32-bit: arithmetic is `Nat` with `% 2 ^ 32`
    wherever the C computation can wrap, `-1` converted to `unsigned` is
    `2 ^ 32 - 1`, and `tail - 4` on `unsigned` is `(tail + (2 ^ 32 - 4)) % 2 ^ 32`.
  * The compiler-provided signature text (`FFN<T>()`) is external input: the
    theorems quantify over it, constrained only as each claim requires.
-/

namespace CTNR

/-- The calibration literal `"void"` as its character run. -/
def VOID : List Char := ['v', 'o', 'i', 'd']

/-- `"void"[m]` of the C source: the string literal `"void"` indexed at `m`.
Index 4 is the literal's terminator; larger indices are out of bounds in C
(never reached by the program) and are mapped to NUL as well. -/
def voidLit : Nat → Char
  | 0 => 'v'
  | 1 => 'o'
  | 2 => 'i'
  | 3 => 'd'
  | _ => Char.ofNat 0

/-- `CTL` (Compile Time Length), from
`inline constexpr unsigned CTL(const char* inLiteral, unsigned tail = 0)`:
`return *inLiteral ? CTL(inLiteral + 1, tail + 1) : tail;`. -/
def CTL : List Char → Nat → Nat
  | [], tail => tail
  | _ :: cs, tail => CTL cs ((tail + 1) % 2 ^ 32)

/-- `CTFV` (Compile Time Find Void), from
`inline constexpr unsigned CTFV(const char* inLiteral, unsigned tail = 0, unsigned match = 0)`:
`return 4 == match ? tail - 4 : (*inLiteral ? CTFV(inLiteral + 1, tail + 1, "void"[match] == *inLiteral ? match + 1 : 0) : -1);`.
The `4 == match` test precedes the end-of-string test, `tail - 4` is unsigned
subtraction, and `-1` converts to `2 ^ 32 - 1`. -/
def CTFV : List Char → Nat → Nat → Nat
  | [], tail, m =>
      if m = 4 then (tail + (2 ^ 32 - 4)) % 2 ^ 32 else 2 ^ 32 - 1
  | c :: cs, tail, m =>
      if m = 4 then (tail + (2 ^ 32 - 4)) % 2 ^ 32
      else CTFV cs ((tail + 1) % 2 ^ 32) (if voidLit m = c then (m + 1) % 2 ^ 32 else 0)

/-- `ISeq<N, Gen, Is...>::STN(inLiteral)`, the index-sequence materializer:
the general step `return ISeq<N, Gen - 1, Gen - 1, Is...>::STN(inLiteral);`
prepends `Gen - 1` to the accumulated pack, and the `Gen = 0` floor
`return { inLiteral[Is]..., '\0' };` gathers the indexed characters and
appends the terminator.  `N` only fixes the result size `CSW<N + 1>` (here:
the list's length), so it is not a parameter of the computation.
`inLiteral[i]` is in-bounds array access in every instantiation the program
creates; out-of-range indices are mapped to NUL. -/
def STN (inLiteral : List Char) : Nat → List Nat → List Char
  | 0, Is => Is.map (fun i => inLiteral.getD i (Char.ofNat 0)) ++ [Char.ofNat 0]
  | Gen + 1, Is => STN inLiteral Gen (Gen :: Is)

/-- `constexpr unsigned s_OffsetStart{ CTFV(FFN<void>()) };` as a function of
the signature text `FFN<void>()`. -/
def s_OffsetStart (sigVoid : List Char) : Nat := CTFV sigVoid 0 0

/-- `constexpr unsigned s_OffsetREnd{ CTL(FFN<void>() + s_OffsetStart + 4) };`
as a function of the signature text `FFN<void>()`. -/
def s_OffsetREnd (sigVoid : List Char) : Nat :=
  CTL (sigVoid.drop (s_OffsetStart sigVoid + 4)) 0

/-- `TNH<T>::s_Len = CTL(FFN<T>() + s_OffsetStart) - s_OffsetREnd`, as a
function of the two signature texts; the subtraction is unsigned. -/
def s_Len (sigVoid sigT : List Char) : Nat :=
  (CTL (sigT.drop (s_OffsetStart sigVoid)) 0 + (2 ^ 32 - s_OffsetREnd sigVoid)) % 2 ^ 32

/-- `TNH<T>::s_Str = ISeq<s_Len>::STN(FFN<T>() + s_OffsetStart)`: the full
index sequence is generated from `Gen = s_Len` with an empty pack.  The
`CSW` wrapper is transparent here: the value is the character array itself. -/
def s_Str (sigVoid sigT : List Char) : List Char :=
  STN (sigT.drop (s_OffsetStart sigVoid)) (s_Len sigVoid sigT) []

/-- `GetName<T>()` returns `TNH<T>::s_Str.val`. -/
def GetName (sigVoid sigT : List Char) : List Char := s_Str sigVoid sigT

/-! Fuel-indexed variants, for the termination claim.

Each mirrors its function above step for step, but consumes one unit of fuel
per recursive call and returns `none` when fuel runs out, so that an upper
bound on the recursion depth is a provable statement. -/

/-- Fuel-indexed `CTL`. -/
def CTLFuel : Nat → List Char → Nat → Option Nat
  | 0, _, _ => none
  | fuel + 1, s, tail =>
      match s with
      | [] => some tail
      | _ :: cs => CTLFuel fuel cs ((tail + 1) % 2 ^ 32)

/-- Fuel-indexed `CTFV`. -/
def CTFVFuel : Nat → List Char → Nat → Nat → Option Nat
  | 0, _, _, _ => none
  | fuel + 1, s, tail, m =>
      if m = 4 then some ((tail + (2 ^ 32 - 4)) % 2 ^ 32)
      else
        match s with
        | [] => some (2 ^ 32 - 1)
        | c :: cs =>
            CTFVFuel fuel cs ((tail + 1) % 2 ^ 32) (if voidLit m = c then (m + 1) % 2 ^ 32 else 0)

/-- Fuel-indexed `STN` (fuel bounds the template-depth expansion of `ISeq`). -/
def STNFuel : Nat → List Char → Nat → List Nat → Option (List Char)
  | 0, _, _, _ => none
  | fuel + 1, inLiteral, Gen, Is =>
      match Gen with
      | 0 => some (Is.map (fun i => inLiteral.getD i (Char.ofNat 0)) ++ [Char.ofNat 0])
      | g + 1 => STNFuel fuel inLiteral g (g :: Is)

/-- The completion observable of the scan: does `CTFV`'s matcher ever bring
its counter to 4?  This mirrors `CTFV`'s recursion exactly — same order of
tests, same counter update on the same characters — dropping only the `tail`
bookkeeping and projecting the outcome to completed / not completed.  It
renders the operational condition "the matcher never completes a 4-character
match" as a statement about the code's own scan. -/
def CTFVCompletes : List Char → Nat → Bool
  | [], m => m == 4
  | c :: cs, m =>
      if m = 4 then true
      else CTFVCompletes cs (if voidLit m = c then (m + 1) % 2 ^ 32 else 0)

/-! Basic lemmas about `CTL` -/

/-- `CTL` computes the string length modulo `2 ^ 32`, shifted by the
accumulator. -/
lemma CTL_eq_mod (s : List Char) : ∀ tail : Nat, tail < 2 ^ 32 →
    CTL s tail = (tail + s.length) % 2 ^ 32 := by
  induction s with
  | nil =>
      intro tail h
      simp only [CTL, List.length_nil, Nat.add_zero]
      omega
  | cons c cs ih =>
      intro tail h
      have h1 : (tail + 1) % 2 ^ 32 < 2 ^ 32 := Nat.mod_lt _ (by norm_num)
      rw [CTL, ih _ h1, Nat.mod_add_mod]
      congr 1
      simp [List.length_cons]
      omega

/-- On inputs that do not overflow, `CTL` is exactly the string length plus
the accumulator. -/
lemma CTL_small (s : List Char) (tail : Nat) (h : tail + s.length < 2 ^ 32) :
    CTL s tail = tail + s.length := by
  rw [CTL_eq_mod s tail (by omega)]
  exact Nat.mod_eq_of_lt h

/-! Basic lemmas about `CTFV` -/

/-- One scanning step of `CTFV` when the match counter is not yet complete. -/
lemma CTFV_cons (c : Char) (cs : List Char) (tail m : Nat) (hm : m ≠ 4) :
    CTFV (c :: cs) tail m
      = CTFV cs ((tail + 1) % 2 ^ 32) (if voidLit m = c then (m + 1) % 2 ^ 32 else 0) := by
  simp [CTFV, hm]

/-- With a complete match counter, `CTFV` returns `tail - 4` (unsigned)
regardless of the remaining input. -/
lemma CTFV_done (s : List Char) (tail : Nat) :
    CTFV s tail 4 = (tail + (2 ^ 32 - 4)) % 2 ^ 32 := by
  cases s <;> simp [CTFV]

/-- Scanning a run that contains no `'v'` from a reset counter leaves the
counter reset and advances `tail` past the run. -/
lemma CTFV_skip (P : List Char) : ∀ (s' : List Char) (tail : Nat),
    (∀ c ∈ P, c ≠ 'v') → tail + P.length < 2 ^ 32 →
    CTFV (P ++ s') tail 0 = CTFV s' (tail + P.length) 0 := by
  induction P with
  | nil => intro s' tail _ _; simp
  | cons c P' ih =>
      intro s' tail hP h
      have hlen : tail + 1 + P'.length < 2 ^ 32 := by
        simp only [List.length_cons] at h; omega
      have hc : ¬ voidLit 0 = c := by
        have hne : c ≠ 'v' := hP c (List.mem_cons_self c P')
        simpa [voidLit, eq_comm] using hne
      rw [List.cons_append, CTFV_cons _ _ _ _ (by omega), if_neg hc,
        Nat.mod_eq_of_lt (by omega), ih s' (tail + 1) (fun d hd => hP d (List.mem_cons_of_mem c hd)) hlen]
      congr 1
      simp only [List.length_cons]
      omega

/-- Scanning the literal `"void"` from a reset counter succeeds and returns
the position where the run begins. -/
lemma CTFV_void (S : List Char) (tail : Nat) (h : tail + 4 < 2 ^ 32) :
    CTFV (VOID ++ S) tail 0 = tail := by
  have e32 : (2 : Nat) ^ 32 = 4294967296 := by norm_num
  have h1 : (tail + 1) % 2 ^ 32 = tail + 1 := Nat.mod_eq_of_lt (by omega)
  have h2 : (tail + 1 + 1) % 2 ^ 32 = tail + 2 := by rw [e32] at *; omega
  have h3 : (tail + 2 + 1) % 2 ^ 32 = tail + 3 := by rw [e32] at *; omega
  have h4 : (tail + 3 + 1) % 2 ^ 32 = tail + 4 := by rw [e32] at *; omega
  rw [show VOID ++ S = 'v' :: 'o' :: 'i' :: 'd' :: S from rfl,
    CTFV_cons _ _ _ _ (by omega), if_pos (show voidLit 0 = 'v' from rfl), h1,
    show (0 + 1) % 2 ^ 32 = 1 from by norm_num,
    CTFV_cons _ _ _ _ (by norm_num), if_pos (show voidLit 1 = 'o' from rfl), h2,
    show (1 + 1) % 2 ^ 32 = 2 from by norm_num,
    CTFV_cons _ _ _ _ (by norm_num), if_pos (show voidLit 2 = 'i' from rfl), h3,
    show (2 + 1) % 2 ^ 32 = 3 from by norm_num,
    CTFV_cons _ _ _ _ (by norm_num), if_pos (show voidLit 3 = 'd' from rfl), h4,
    show (3 + 1) % 2 ^ 32 = 4 from by norm_num,
    CTFV_done]
  rw [e32] at *
  omega

/-! Calibration on a structurally split signature

The Signature Provider contract (spec §4.1) says every signature is
boilerplate ++ spelling ++ boilerplate with the same boilerplate for every
type.  The lemmas below compute the calibrated offsets on signatures of the
shape `P ++ VOID ++ S` whose leading boilerplate `P` contains no `'v'`. -/

/-- On `FFN<void>() = P ++ "void" ++ S` with no `'v'` in `P`, the calibrated
start offset is `P.length`. -/
lemma offsetStart_split (P S : List Char) (hP : ∀ c ∈ P, c ≠ 'v')
    (hlen : P.length + 4 + S.length < 2 ^ 32) :
    s_OffsetStart (P ++ VOID ++ S) = P.length := by
  unfold s_OffsetStart
  rw [List.append_assoc, CTFV_skip P (VOID ++ S) 0 hP (by omega)]
  simpa using CTFV_void S P.length (by omega)

/-- On `FFN<void>() = P ++ "void" ++ S` with no `'v'` in `P`, the calibrated
reverse-end offset is `S.length`. -/
lemma offsetREnd_split (P S : List Char) (hP : ∀ c ∈ P, c ≠ 'v')
    (hlen : P.length + 4 + S.length < 2 ^ 32) :
    s_OffsetREnd (P ++ VOID ++ S) = S.length := by
  unfold s_OffsetREnd
  rw [offsetStart_split P S hP hlen]
  have hdrop : (P ++ VOID ++ S).drop (P.length + 4) = S := by
    rw [show P.length + 4 = (P ++ VOID).length from by simp [VOID], List.drop_left]
  rw [hdrop, CTL_small S 0 (by omega), Nat.zero_add]

/-- On a type signature `P ++ name ++ S` with the offsets calibrated from
`P ++ "void" ++ S`, the resolved length is the spelling's length. -/
lemma s_Len_split (P S name : List Char) (hP : ∀ c ∈ P, c ≠ 'v')
    (hlenV : P.length + 4 + S.length < 2 ^ 32)
    (hlenT : P.length + name.length + S.length < 2 ^ 32) :
    s_Len (P ++ VOID ++ S) (P ++ name ++ S) = name.length := by
  have e32 : (2 : Nat) ^ 32 = 4294967296 := by norm_num
  unfold s_Len
  rw [offsetStart_split P S hP hlenV, offsetREnd_split P S hP hlenV,
    List.append_assoc, List.drop_left,
    CTL_small (name ++ S) 0 (by simp only [List.length_append]; omega)]
  simp only [List.length_append, Nat.zero_add]
  rw [e32] at *
  omega

/-! The materializer `STN` -/

/-- Unrolling the template recursion of `ISeq`: the floor instantiation
receives exactly the pack `{0, 1, …, Gen-1}` prepended (in increasing order)
to the initial pack. -/
lemma STN_eq_map (lit : List Char) : ∀ (Gen : Nat) (Is : List Nat),
    STN lit Gen Is
      = (List.range Gen ++ Is).map (fun i => lit.getD i (Char.ofNat 0)) ++ [Char.ofNat 0] := by
  intro Gen
  induction Gen with
  | zero => intro Is; simp [STN]
  | succ g ih =>
      intro Is
      rw [STN, ih (g :: Is), List.range_succ]
      simp

/-- Gathering the first `N` indices of a list that is long enough yields its
`N`-element head verbatim. -/
lemma map_getD_take (l : List Char) : ∀ N : Nat, N ≤ l.length →
    (List.range N).map (fun i => l.getD i (Char.ofNat 0)) = l.take N := by
  intro N
  induction N with
  | zero => intro _; simp
  | succ n ih =>
      intro h
      have hn : n < l.length := by omega
      rw [List.range_succ, List.map_append, ih (by omega), List.take_succ,
        List.getElem?_eq_getElem hn]
      simp [List.getD_eq_getElem?_getD, List.getElem?_eq_getElem hn]

/-- On a type signature `P ++ name ++ S`, the materialized array is the
spelling followed by the terminator. -/
lemma s_Str_split (P S name : List Char) (hP : ∀ c ∈ P, c ≠ 'v')
    (hlenV : P.length + 4 + S.length < 2 ^ 32)
    (hlenT : P.length + name.length + S.length < 2 ^ 32) :
    s_Str (P ++ VOID ++ S) (P ++ name ++ S) = name ++ [Char.ofNat 0] := by
  unfold s_Str
  rw [offsetStart_split P S hP hlenV, s_Len_split P S name hP hlenV hlenT,
    List.append_assoc, List.drop_left, STN_eq_map, List.append_nil,
    map_getD_take (name ++ S) name.length (by simp), List.take_left]

/-! Soundness of the scan -/

/-- Extending a partial match of `"void"` by its next character. -/
lemma voidTake_snoc (m : Nat) (hm : m < 4) :
    VOID.take m ++ [voidLit m] = VOID.take (m + 1) := by
  interval_cases m <;> rfl

/-- Invariant-carrying scan lemma: from a state whose consumed text is `pre`
and whose counter `m` certifies that the last `m` consumed characters are the
first `m` characters of `"void"`, `CTFV` either fails with `2 ^ 32 - 1` or
returns a position at which the full text carries the contiguous run
`"void"`. -/
lemma CTFV_dichot : ∀ (s' pre : List Char) (m : Nat),
    m ≤ 4 → m ≤ pre.length → pre.length + s'.length < 2 ^ 32 →
    pre.drop (pre.length - m) = VOID.take m →
    CTFV s' pre.length m = 2 ^ 32 - 1 ∨
      (CTFV s' pre.length m + 4 ≤ pre.length + s'.length ∧
       ((pre ++ s').drop (CTFV s' pre.length m)).take 4 = VOID) := by
  intro s'
  induction s' with
  | nil =>
      intro pre m hm4 hmp hlen hinv
      by_cases h4 : m = 4
      · subst h4
        right
        have e32 : (2 : Nat) ^ 32 = 4294967296 := by norm_num
        have hres : CTFV [] pre.length 4 = pre.length - 4 := by
          rw [CTFV_done]; rw [e32] at *; omega
        rw [hres]
        refine ⟨by simp only [List.length_nil]; omega, ?_⟩
        rw [List.append_nil, hinv]
        rfl
      · left
        simp [CTFV, h4]
  | cons c cs ih =>
      intro pre m hm4 hmp hlen hinv
      have hlen' : pre.length + 1 + cs.length < 2 ^ 32 := by
        simp only [List.length_cons] at hlen; omega
      by_cases h4 : m = 4
      · subst h4
        right
        have e32 : (2 : Nat) ^ 32 = 4294967296 := by norm_num
        have hres : CTFV (c :: cs) pre.length 4 = pre.length - 4 := by
          rw [CTFV_done]; rw [e32] at *; omega
        rw [hres]
        refine ⟨by simp only [List.length_cons]; omega, ?_⟩
        rw [List.drop_append_of_le_length (by omega), hinv,
          show VOID.take 4 = VOID from rfl,
          List.take_append_of_le_length (by simp [VOID])]
        rfl
      · rw [CTFV_cons c cs _ m h4,
          Nat.mod_eq_of_lt (show pre.length + 1 < 2 ^ 32 by omega)]
        by_cases hc : voidLit m = c
        · rw [if_pos hc, Nat.mod_eq_of_lt (show m + 1 < 2 ^ 32 by omega)]
          have hinv' : (pre ++ [c]).drop ((pre ++ [c]).length - (m + 1))
              = VOID.take (m + 1) := by
            rw [List.length_append, List.length_singleton,
              show pre.length + 1 - (m + 1) = pre.length - m from by omega,
              List.drop_append_of_le_length (by omega), hinv, ← hc,
              voidTake_snoc m (by omega)]
          have := ih (pre ++ [c]) (m + 1) (by omega)
            (by simp only [List.length_append, List.length_singleton]; omega)
            (by simp only [List.length_append, List.length_singleton]; omega) hinv'
          simpa only [List.length_append, List.length_singleton, List.length_cons,
            List.length_nil, Nat.zero_add, Nat.add_assoc, Nat.add_comm 1 cs.length,
            List.append_assoc, List.singleton_append] using this
        · rw [if_neg hc]
          have hinv' : (pre ++ [c]).drop ((pre ++ [c]).length - 0) = VOID.take 0 := by
            simp
          have := ih (pre ++ [c]) 0 (by omega)
            (by simp only [List.length_append, List.length_singleton]; omega)
            (by simp only [List.length_append, List.length_singleton]; omega) hinv'
          simpa only [List.length_append, List.length_singleton, List.length_cons,
            List.length_nil, Nat.zero_add, Nat.add_assoc, Nat.add_comm 1 cs.length,
            List.append_assoc, List.singleton_append] using this

/-! Claim theorems -/

/-- Claim C1: for the calibration reference type (`void`), `GetName` returns
exactly the literal spelling `"void"`: the materialized array has length 4
(so the resolved name length is 4) and content `'v','o','i','d'` followed by
the terminator, whenever the signature for `void` contains the literal at the
calibrated position. -/
theorem getName_void_calibrated (sigVoid : List Char)
    (hlen : sigVoid.length < 2 ^ 32)
    (hcal : (sigVoid.drop (s_OffsetStart sigVoid)).take 4 = VOID) :
    s_Len sigVoid sigVoid = 4 ∧
    GetName sigVoid sigVoid = VOID ++ [Char.ofNat 0] := by
  have hbound : s_OffsetStart sigVoid + 4 ≤ sigVoid.length := by
    have hl := congrArg List.length hcal
    simp only [List.length_take, List.length_drop, VOID, List.length_cons,
      List.length_nil] at hl
    omega
  have e32 : (2 : Nat) ^ 32 = 4294967296 := by norm_num
  have hrend : s_OffsetREnd sigVoid
      = sigVoid.length - s_OffsetStart sigVoid - 4 := by
    unfold s_OffsetREnd
    rw [CTL_small _ 0 (by simp only [List.length_drop]; omega)]
    simp only [List.length_drop]
    omega
  have hlenEq : s_Len sigVoid sigVoid = 4 := by
    unfold s_Len
    rw [hrend, CTL_small _ 0 (by simp only [List.length_drop]; omega)]
    simp only [List.length_drop, Nat.zero_add]
    rw [e32] at *
    omega
  refine ⟨hlenEq, ?_⟩
  unfold GetName s_Str
  rw [hlenEq, STN_eq_map, List.append_nil,
    map_getD_take _ 4 (by simp only [List.length_drop]; omega), hcal]

/-- Witness for C1 on a realistic clang-shaped signature for `void`. -/
theorem getName_void_calibrated_witness :
    s_Len "const char *CTNR::Impl::FFN() [T = void]".toList
        "const char *CTNR::Impl::FFN() [T = void]".toList = 4 ∧
    GetName "const char *CTNR::Impl::FFN() [T = void]".toList
        "const char *CTNR::Impl::FFN() [T = void]".toList = VOID ++ [Char.ofNat 0] :=
  getName_void_calibrated "const char *CTNR::Impl::FFN() [T = void]".toList
    (by decide) (by decide)

/-- Counterexample to claim C2 as stated: the string `"vvoid"` contains the
literal `"void"` as a contiguous run (at index 1), yet `CTFV` does not return
the index of that first occurrence — the counter reset consumes the
mismatched character, so the scan returns the not-found value `2 ^ 32 - 1`. -/
theorem ctfv_misses_overlapped_occurrence :
    (("vvoid".toList.drop 1).take 4 = VOID) ∧
    CTFV "vvoid".toList 0 0 = 2 ^ 32 - 1 := by
  constructor
  · decide
  · decide

/-- Claim C2 (amended): for every null-terminated signature of the shape
`P ++ "void" ++ rest` in which the text `P` before the run contains no `'v'`
(so the reset-on-mismatch scan never discards a partial match overlapping the
run), `CTFV` — which consumes the string one character at a time, keeps a
match counter that resets on mismatch, and signals completion when the
counter reaches 4 — returns `P.length`, the index of the first occurrence of
the run. -/
theorem ctfv_first_occurrence_clean (P rest : List Char)
    (hP : ∀ c ∈ P, c ≠ 'v')
    (hlen : P.length + 4 + rest.length < 2 ^ 32) :
    CTFV (P ++ VOID ++ rest) 0 0 = P.length ∧
    ∀ i < P.length, ((P ++ VOID ++ rest).drop i).take 4 ≠ VOID := by
  constructor
  · have h := offsetStart_split P rest hP hlen
    simpa only [s_OffsetStart] using h
  · intro i hi hmatch
    have hv : (P ++ VOID ++ rest)[i]? = some 'v' := by
      have h0 := congrArg (fun l => l[0]?) hmatch
      simp only [List.getElem?_take, List.getElem?_drop, Nat.add_zero] at h0
      simpa [VOID] using h0
    have hiP : P[i]? = some 'v' := by
      rw [List.getElem?_append, if_pos (by simp [VOID, List.length_append]; omega)] at hv
      rw [List.getElem?_append, if_pos hi] at hv
      exact hv
    have hmem : 'v' ∈ P := by
      rw [List.getElem?_eq_getElem hi] at hiP
      exact (Option.some.injEq _ _ ▸ hiP) ▸ List.getElem_mem hi
    exact hP 'v' hmem rfl

/-- Witness for C2 (amended) at a concrete signature. -/
theorem ctfv_first_occurrence_clean_witness :
    CTFV (['a', 'b', 'c'] ++ VOID ++ ['x']) 0 0 = 3 ∧
    ∀ i < 3, (((['a', 'b', 'c'] ++ VOID ++ ['x']).drop i).take 4) ≠ VOID :=
  ctfv_first_occurrence_clean ['a', 'b', 'c'] ['x'] (by decide) (by decide)

/-- Claim C3: for every type `T` (its signature split as boilerplate,
spelling, boilerplate), the resolved name length equals the total signature
length (counted to the terminator by `CTL`) minus the calibrated start offset
minus the calibrated suffix length, and the materialized content is exactly
the substring between the calibrated boundaries followed by the
terminator. -/
theorem s_Len_span_resolution (P S name : List Char)
    (hP : ∀ c ∈ P, c ≠ 'v')
    (hlenV : P.length + 4 + S.length < 2 ^ 32)
    (hlenT : P.length + name.length + S.length < 2 ^ 32) :
    s_Len (P ++ VOID ++ S) (P ++ name ++ S)
      = CTL (P ++ name ++ S) 0 - s_OffsetStart (P ++ VOID ++ S)
          - s_OffsetREnd (P ++ VOID ++ S) ∧
    s_Str (P ++ VOID ++ S) (P ++ name ++ S)
      = ((P ++ name ++ S).drop (s_OffsetStart (P ++ VOID ++ S))).take
          (s_Len (P ++ VOID ++ S) (P ++ name ++ S)) ++ [Char.ofNat 0] := by
  have h1 := offsetStart_split P S hP hlenV
  have h2 := offsetREnd_split P S hP hlenV
  have h3 := s_Len_split P S name hP hlenV hlenT
  have h4 := s_Str_split P S name hP hlenV hlenT
  constructor
  · rw [h1, h2, h3, CTL_small _ 0 (by simp only [List.length_append]; omega)]
    simp only [List.length_append, Nat.zero_add]
    omega
  · rw [h4, h1, h3, List.append_assoc, List.drop_left, List.take_left]

/-- Witness for C3 at a concrete boilerplate/spelling split. -/
theorem s_Len_span_resolution_witness :
    s_Len (['a', 'b'] ++ VOID ++ ['z']) (['a', 'b'] ++ ['i', 'n', 't'] ++ ['z'])
      = CTL (['a', 'b'] ++ ['i', 'n', 't'] ++ ['z']) 0
          - s_OffsetStart (['a', 'b'] ++ VOID ++ ['z'])
          - s_OffsetREnd (['a', 'b'] ++ VOID ++ ['z']) ∧
    s_Str (['a', 'b'] ++ VOID ++ ['z']) (['a', 'b'] ++ ['i', 'n', 't'] ++ ['z'])
      = (((['a', 'b'] ++ ['i', 'n', 't'] ++ ['z']).drop
            (s_OffsetStart (['a', 'b'] ++ VOID ++ ['z']))).take
          (s_Len (['a', 'b'] ++ VOID ++ ['z']) (['a', 'b'] ++ ['i', 'n', 't'] ++ ['z'])))
        ++ [Char.ofNat 0] :=
  s_Len_span_resolution ['a', 'b'] ['z'] ['i', 'n', 't'] (by decide) (by decide) (by decide)

/-- Claim C4: for every start offset and length `N` within the signature,
the materializer produces an array of size `N + 1` whose first `N` characters
are copied verbatim from `signature[start, start + N)` and whose last
character is the terminator; the index set produced by the recursive
expansion of `ISeq` is exactly `{0, 1, …, N-1}` in increasing order, so the
result is the gather of the signature over `List.range N`. -/
theorem STN_materializes_span (s : List Char) (start N : Nat)
    (h : start + N ≤ s.length) :
    (STN (s.drop start) N []).length = N + 1 ∧
    STN (s.drop start) N [] = (s.drop start).take N ++ [Char.ofNat 0] ∧
    STN (s.drop start) N []
      = (List.range N).map (fun i => (s.drop start).getD i (Char.ofNat 0))
        ++ [Char.ofNat 0] := by
  have hN : N ≤ (s.drop start).length := by
    simp only [List.length_drop]; omega
  have h3 : STN (s.drop start) N []
      = (List.range N).map (fun i => (s.drop start).getD i (Char.ofNat 0))
        ++ [Char.ofNat 0] := by
    rw [STN_eq_map, List.append_nil]
  have h2 : STN (s.drop start) N [] = (s.drop start).take N ++ [Char.ofNat 0] := by
    rw [h3, map_getD_take _ N hN]
  refine ⟨?_, h2, h3⟩
  rw [h2]
  simp only [List.length_append, List.length_take, List.length_singleton]
  omega

/-- Witness for C4 at a concrete slice. -/
theorem STN_materializes_span_witness :
    (STN (['h', 'e', 'l', 'l', 'o'].drop 1) 3 []).length = 3 + 1 ∧
    STN (['h', 'e', 'l', 'l', 'o'].drop 1) 3 []
      = (['h', 'e', 'l', 'l', 'o'].drop 1).take 3 ++ [Char.ofNat 0] ∧
    STN (['h', 'e', 'l', 'l', 'o'].drop 1) 3 []
      = (List.range 3).map (fun i => (['h', 'e', 'l', 'l', 'o'].drop 1).getD i (Char.ofNat 0))
        ++ [Char.ofNat 0] :=
  STN_materializes_span ['h', 'e', 'l', 'l', 'o'] 1 3 (by decide)

/-- Claim C6: for any two distinct types `A` and `B` whose compiler-emitted
spellings differ, the character sequences returned by `GetName` differ as
content (the embedded values are the character lists themselves, so equality
is content comparison). -/
theorem getName_distinct_spellings (P S nameA nameB : List Char)
    (hP : ∀ c ∈ P, c ≠ 'v')
    (hlenV : P.length + 4 + S.length < 2 ^ 32)
    (hlenA : P.length + nameA.length + S.length < 2 ^ 32)
    (hlenB : P.length + nameB.length + S.length < 2 ^ 32)
    (hne : nameA ≠ nameB) :
    GetName (P ++ VOID ++ S) (P ++ nameA ++ S)
      ≠ GetName (P ++ VOID ++ S) (P ++ nameB ++ S) := by
  unfold GetName
  rw [s_Str_split P S nameA hP hlenV hlenA, s_Str_split P S nameB hP hlenV hlenB]
  intro h
  exact hne (List.append_cancel_right h)

/-- Witness for C6: `int` and `bool` resolve to different names. -/
theorem getName_distinct_spellings_witness :
    GetName (['a', 'b'] ++ VOID ++ ['z']) (['a', 'b'] ++ ['i', 'n', 't'] ++ ['z'])
      ≠ GetName (['a', 'b'] ++ VOID ++ ['z']) (['a', 'b'] ++ ['b', 'o', 'o', 'l'] ++ ['z']) :=
  getName_distinct_spellings ['a', 'b'] ['z'] ['i', 'n', 't'] ['b', 'o', 'o', 'l']
    (by decide) (by decide) (by decide) (by decide) (by decide)

/-- Claim C8: every compile-time recursive procedure terminates on its
intended inputs, with an explicit recursion-depth bound: `CTL` and `CTFV`
complete within one step per character of the null-terminated input (depth
`length + 1`), and the index-sequence expansion of `ISeq` completes within
one template instantiation per counter decrement (depth `Gen + 1`).  The
fuel-indexed mirrors return `none` exactly when the recursion would exceed
the given depth, so `some` at these depths is the termination bound. -/
theorem compile_time_recursion_terminates :
    (∀ (s : List Char) (tail : Nat),
      CTLFuel (s.length + 1) s tail = some (CTL s tail)) ∧
    (∀ (s : List Char) (tail m : Nat),
      CTFVFuel (s.length + 1) s tail m = some (CTFV s tail m)) ∧
    (∀ (lit : List Char) (Gen : Nat) (Is : List Nat),
      STNFuel (Gen + 1) lit Gen Is = some (STN lit Gen Is)) := by
  refine ⟨?_, ?_, ?_⟩
  · intro s
    induction s with
    | nil => intro tail; rfl
    | cons c cs ih =>
        intro tail
        simpa only [CTLFuel, CTL, List.length_cons] using ih ((tail + 1) % 2 ^ 32)
  · intro s
    induction s with
    | nil =>
        intro tail m
        by_cases h : m = 4 <;> simp [CTFVFuel, CTFV, h]
    | cons c cs ih =>
        intro tail m
        by_cases h : m = 4
        · simp [CTFVFuel, CTFV, h]
        · simpa only [CTFVFuel, List.length_cons, if_neg h, CTFV_cons c cs tail m h]
            using ih ((tail + 1) % 2 ^ 32) (if voidLit m = c then (m + 1) % 2 ^ 32 else 0)
  · intro lit Gen
    induction Gen with
    | zero => intro Is; rfl
    | succ g ih =>
        intro Is
        simpa only [STNFuel, STN] using ih (g :: Is)

/-- Claim C9: match soundness of the scan — whenever `CTFV` returns a value
`v` other than the not-found sentinel `2 ^ 32 - 1`, the four characters of
the input at positions `v, v+1, v+2, v+3` are exactly `'v','o','i','d'`. -/
theorem ctfv_match_sound (s : List Char) (v : Nat)
    (hlen : s.length < 2 ^ 32)
    (hv : CTFV s 0 0 = v) (hne : v ≠ 2 ^ 32 - 1) :
    (s.drop v).take 4 = VOID := by
  have h := CTFV_dichot s [] 0 (by norm_num) (by norm_num)
    (by simpa using hlen) rfl
  simp only [List.length_nil, List.nil_append, Nat.zero_add] at h
  rcases h with h | ⟨_, h2⟩
  · exact absurd (hv ▸ h) (by simpa using hne)
  · rwa [hv] at h2

/-- Witness for C9: on `" void"` the scan returns position 1 and the run is
there. -/
theorem ctfv_match_sound_witness :
    CTFV [' ', 'v', 'o', 'i', 'd'] 0 0 = 1 ∧
    (([' ', 'v', 'o', 'i', 'd'].drop 1).take 4 = VOID) :=
  ⟨by decide,
    ctfv_match_sound [' ', 'v', 'o', 'i', 'd'] 1 (by decide) (by decide) (by decide)⟩

/-- From any scan state whose matcher never completes, `CTFV` falls through
to the end of the string and returns the in-band not-found value. -/
lemma CTFV_eq_of_not_completes : ∀ (s : List Char) (tail m : Nat),
    CTFVCompletes s m = false → CTFV s tail m = 2 ^ 32 - 1 := by
  intro s
  induction s with
  | nil =>
      intro tail m h
      have hm : m ≠ 4 := by simpa [CTFVCompletes] using h
      simp [CTFV, hm]
  | cons c cs ih =>
      intro tail m h
      have hm : m ≠ 4 := by
        intro he
        subst he
        simp [CTFVCompletes] at h
      rw [CTFV_cons c cs tail m hm]
      apply ih
      simpa [CTFVCompletes, hm] using h

/-- Claim C10: in-band failure value — on every null-terminated input on
which `CTFV`'s matcher never completes a 4-character match (the scan never
brings its counter to 4, the observable `CTFVCompletes` of the same
recursion), `CTFV` returns `-1` converted to `unsigned`, i.e. the ordinary
value `2 ^ 32 - 1` of its 32-bit return type, not a distinct error state. -/
theorem ctfv_inband_failure_value (s : List Char)
    (hnc : CTFVCompletes s 0 = false) :
    CTFV s 0 0 = 2 ^ 32 - 1 :=
  CTFV_eq_of_not_completes s 0 0 hnc

/-- Witness for C10 on `"vvoid"`: the matcher starts a partial match,
discards it together with the mismatched character, and never completes, so
the scan returns the in-band `2 ^ 32 - 1` even though the input carries the
run. -/
theorem ctfv_inband_failure_value_witness :
    CTFV "vvoid".toList 0 0 = 2 ^ 32 - 1 :=
  ctfv_inband_failure_value "vvoid".toList (by decide)

end CTNR
